import Mathlib

/-!
# Verification of the fdb-vector layer (dedalcom/fdb-vector)

A shallow embedding of the sparse-vector layer from `src/vector.go` and
`src/keyvalue.go`, together with the FoundationDB tuple-layer int64 key
encoding that `keyAt` / `indexAt` delegate to (the `fdb/tuple` and
`fdb/subspace` packages of the fdb-go binding).

The backing store, restricted to the vector's namespace, is modelled as an
association list of (index, value-bytes) pairs kept in ascending index
order; this is justified by the order-preserving key encoding proved in
`keyAt_order` below (byte-lexicographic order of encoded keys coincides
with numeric order of indices), so range reads in key order are range
reads in index order.  Go byte slices are `List Nat` with entries < 256;
Go `int64` is `Int` with explicit wrap-around (`wrap64`) where the Go code
can overflow; `float64` is represented by its IEEE-754 bit pattern, which
is exactly what the codec moves around (`binary.Write`/`binary.Read`).
-/

namespace FdbVec

/-- A Go byte slice: a list of byte values. -/
abbrev Bytes := List Nat

/-! ## Big-endian byte encoding (`encoding/binary`, BigEndian) -/

/-- The low `n` bytes of `m` in big-endian order, as produced by
`binary.BigEndian.PutUint64` followed by taking the trailing `n` bytes. -/
def beBytes : Nat → Nat → Bytes
  | 0, _ => []
  | n + 1, m => m / 256 ^ n :: beBytes n (m % 256 ^ n)

/-- The numeric value of a big-endian byte string. -/
def beValue : Bytes → Nat
  | [] => 0
  | b :: bs => b * 256 ^ bs.length + beValue bs

theorem beBytes_length (n m : Nat) : (beBytes n m).length = n := by
  induction n generalizing m with
  | zero => rfl
  | succ n ih => simp [beBytes, ih]

theorem beValue_beBytes (n m : Nat) (h : m < 256 ^ n) :
    beValue (beBytes n m) = m := by
  induction n generalizing m with
  | zero =>
    simp [beBytes, beValue]
    omega
  | succ n ih =>
    have hmod : m % 256 ^ n < 256 ^ n := Nat.mod_lt _ (Nat.pos_pow_of_pos _ (by norm_num))
    simp only [beBytes, beValue, beBytes_length, ih _ hmod]
    have := Nat.div_add_mod' m (256 ^ n)
    omega

/-! ## Byte-lexicographic order (`bytes.Compare` yielding -1) -/

/-- Strict byte-lexicographic order on byte strings, with a strict
prefix ordered first, as computed by Go's `bytes.Compare` returning -1. -/
def lexLt : Bytes → Bytes → Bool
  | [], [] => false
  | [], _ :: _ => true
  | _ :: _, [] => false
  | a :: as, b :: bs => if a < b then true else if a = b then lexLt as bs else false

theorem lexLt_cons_of_lt (a b : Nat) (as bs : Bytes) (h : a < b) :
    lexLt (a :: as) (b :: bs) = true := by
  simp [lexLt, h]

theorem lexLt_cons_same (a : Nat) (as bs : Bytes) :
    lexLt (a :: as) (a :: bs) = lexLt as bs := by
  simp [lexLt]

theorem lexLt_append (p xs ys : Bytes) :
    lexLt (p ++ xs) (p ++ ys) = lexLt xs ys := by
  induction p with
  | nil => rfl
  | cons a p ih => simpa [lexLt_cons_same] using ih

theorem lexLt_beBytes (n a b : Nat) (hab : a < b) (hb : b < 256 ^ n) :
    lexLt (beBytes n a) (beBytes n b) = true := by
  induction n generalizing a b with
  | zero => simp at hb; omega
  | succ n ih =>
    have hq : a / 256 ^ n ≤ b / 256 ^ n := Nat.div_le_div_right (Nat.le_of_lt hab)
    rcases Nat.lt_or_ge (a / 256 ^ n) (b / 256 ^ n) with hlt | hge
    · exact lexLt_cons_of_lt _ _ _ _ hlt
    · have heq : a / 256 ^ n = b / 256 ^ n := Nat.le_antisymm hq hge
      have ha' := Nat.div_add_mod a (256 ^ n)
      have hb' := Nat.div_add_mod b (256 ^ n)
      have hmlt : a % 256 ^ n < b % 256 ^ n := by
        rw [heq] at ha'
        omega
      have hbm : b % 256 ^ n < 256 ^ n :=
        Nat.mod_lt _ (Nat.pos_pow_of_pos _ (by norm_num))
      simp only [beBytes, heq, lexLt_cons_same]
      exact ih _ _ hmlt hbm

/-! ## FoundationDB tuple-layer integer encoding

`keyAt` / `indexAt` in `src/vector.go` delegate to `tuple.Pack` /
`subspace.Unpack` of the fdb-go binding.  The tuple layer encodes an
`int64` as a one-byte type code followed by a minimal-length big-endian
payload: code `0x14` for zero, `0x14 + n` with the `n`-byte value for a
positive integer, and `0x14 - n` with the `n`-byte value offset by
`sizeLimits[n] = 2^(8n) - 1` for a negative integer (computed with Go's
wrapping int64 arithmetic). -/

/-- `bisectLeft` over the tuple layer's `sizeLimits` array: the number of
bytes needed for a (nonzero) magnitude below `2^64`. -/
def intByteLen (m : Nat) : Nat :=
  if m ≤ 255 then 1
  else if m ≤ 65535 then 2
  else if m ≤ 16777215 then 3
  else if m ≤ 4294967295 then 4
  else if m ≤ 1099511627775 then 5
  else if m ≤ 281474976710655 then 6
  else if m ≤ 72057594037927935 then 7
  else 8

theorem intByteLen_pos (m : Nat) : 1 ≤ intByteLen m := by
  unfold intByteLen; split_ifs <;> norm_num

theorem intByteLen_le_eight (m : Nat) : intByteLen m ≤ 8 := by
  unfold intByteLen; split_ifs <;> norm_num

theorem lt_pow_intByteLen (m : Nat) (h : m < 2 ^ 64) : m < 256 ^ intByteLen m := by
  unfold intByteLen
  split_ifs <;> omega

set_option maxHeartbeats 1600000 in
theorem intByteLen_mono (a b : Nat) (h : a ≤ b) : intByteLen a ≤ intByteLen b := by
  unfold intByteLen
  split_ifs <;> omega

/-- Wrap an integer into the two's-complement `int64` range, as Go's
signed 64-bit arithmetic does on overflow. -/
def wrap64 (z : Int) : Int := (z + 2 ^ 63) % 2 ^ 64 - 2 ^ 63

/-- Interpret the `n`-byte big-endian payload, zero-extended into an
8-byte buffer, as a Go `int64` (the `binary.Read` step of `decodeInt`). -/
def i64n (v : Nat) : Int := if v < 2 ^ 63 then (v : Int) else (v : Int) - 2 ^ 64

theorem wrap64_eq_self (z : Int) (h1 : -(2 : Int) ^ 63 ≤ z) (h2 : z < 2 ^ 63) :
    wrap64 z = z := by
  have e1 : (2 : Int) ^ 63 = 9223372036854775808 := by norm_num
  have e2 : (2 : Int) ^ 64 = 18446744073709551616 := by norm_num
  unfold wrap64
  rw [e1, e2] at *
  omega

theorem wrap64_congr (a b : Int) (h : a % 2 ^ 64 = b % 2 ^ 64) :
    wrap64 a = wrap64 b := by
  have e2 : (2 : Int) ^ 64 = 18446744073709551616 := by norm_num
  unfold wrap64
  rw [e2] at *
  omega

theorem i64n_emod (v : Nat) : i64n v % 2 ^ 64 = (v : Int) % 2 ^ 64 := by
  unfold i64n
  split_ifs with h
  · rfl
  · omega

/-- The tuple-layer encoding of an `int64` index (`tuple.Pack` restricted
to a single integer element), translated from `encodeInt` in the fdb-go
tuple package. -/
def tupleEncInt (i : Int) : Bytes :=
  if i = 0 then [20]
  else if 0 < i then
    (20 + intByteLen i.toNat) :: beBytes (intByteLen i.toNat) i.toNat
  else
    (20 - intByteLen (-i).toNat) ::
      beBytes (intByteLen (-i).toNat) (2 ^ (8 * intByteLen (-i).toNat) - 1 + i).toNat

/-- The tuple-layer decoding of an integer element (`decodeInt` in the
fdb-go tuple package): dispatch on the type-code byte, read the payload,
and undo the negative offset with wrapping `int64` arithmetic. -/
def tupleDecInt (bs : Bytes) : Option Int :=
  match bs with
  | [] => none
  | c :: rest =>
    if c = 20 then some 0
    else if 20 < c ∧ c ≤ 28 then
      if rest.length < c - 20 then none
      else some (i64n (beValue (rest.take (c - 20))))
    else if 12 ≤ c ∧ c < 20 then
      if rest.length < 20 - c then none
      else some (wrap64 (i64n (beValue (rest.take (20 - c))) -
        i64n (2 ^ (8 * (20 - c)) - 1)))
    else none

theorem tupleEncInt_zero : tupleEncInt 0 = [20] := by simp [tupleEncInt]

theorem tupleEncInt_pos (i : Int) (h : 0 < i) :
    tupleEncInt i =
      (20 + intByteLen i.toNat) :: beBytes (intByteLen i.toNat) i.toNat := by
  rw [tupleEncInt, if_neg (by omega), if_pos h]

theorem tupleEncInt_neg (i : Int) (h : i < 0) :
    tupleEncInt i =
      (20 - intByteLen (-i).toNat) ::
        beBytes (intByteLen (-i).toNat) (2 ^ (8 * intByteLen (-i).toNat) - 1 + i).toNat := by
  rw [tupleEncInt, if_neg (by omega), if_neg (by omega)]

theorem pow256 (n : Nat) : (256 : Nat) ^ n = 2 ^ (8 * n) := by
  rw [pow_mul]; norm_num

/-- Decoding recovers any encoded `int64` index exactly. -/
theorem tupleDecInt_tupleEncInt (i : Int) (h1 : -(2 : Int) ^ 63 ≤ i) (h2 : i < 2 ^ 63) :
    tupleDecInt (tupleEncInt i) = some i := by
  rcases lt_trichotomy i 0 with hneg | rfl | hpos
  · rw [tupleEncInt_neg i hneg]
    have hm1 : 1 ≤ (-i).toNat := by omega
    have hm64 : (-i).toNat < 2 ^ 64 := by omega
    have hnpos := intByteLen_pos (-i).toNat
    have hn8 := intByteLen_le_eight (-i).toNat
    have hm256 := lt_pow_intByteLen (-i).toNat hm64
    rw [pow256] at hm256
    set n := intByteLen (-i).toNat with hndef
    have h2n : ((2 ^ (8 * n) : Nat) : Int) = 2 ^ (8 * n) := by push_cast; ring
    simp only [tupleDecInt]
    rw [if_neg (by omega), if_neg (by omega), if_pos (by omega)]
    have hsub : 20 - (20 - n) = n := by omega
    rw [hsub, beBytes_length, if_neg (by omega),
      List.take_of_length_le (by rw [beBytes_length]),
      beValue_beBytes _ _ (by rw [pow256]; omega)]
    have hcongr : (i64n (2 ^ (8 * n) - 1 + i).toNat - i64n (2 ^ (8 * n) - 1)) % 2 ^ 64 =
        (((2 ^ (8 * n) - 1 + i).toNat : Int) - ((2 ^ (8 * n) - 1 : Nat) : Int)) % 2 ^ 64 := by
      rw [Int.sub_emod, i64n_emod, i64n_emod, ← Int.sub_emod]
    rw [wrap64_congr _ _ hcongr]
    have harg : (((2 ^ (8 * n) - 1 + i).toNat : Int) - ((2 ^ (8 * n) - 1 : Nat) : Int)) = i := by
      omega
    rw [harg, wrap64_eq_self i h1 (by omega)]
  · rw [tupleEncInt_zero]; rfl
  · rw [tupleEncInt_pos i hpos]
    have hm64 : i.toNat < 2 ^ 64 := by omega
    have hnpos := intByteLen_pos i.toNat
    have hn8 := intByteLen_le_eight i.toNat
    have hm256 := lt_pow_intByteLen i.toNat hm64
    set n := intByteLen i.toNat with hndef
    simp only [tupleDecInt]
    rw [if_neg (by omega), if_pos (by omega)]
    have hsub : 20 + n - 20 = n := by omega
    rw [hsub, beBytes_length, if_neg (by omega),
      List.take_of_length_le (by rw [beBytes_length]),
      beValue_beBytes _ _ hm256]
    unfold i64n
    rw [if_pos (by omega)]
    simp [Int.toNat_of_nonneg hpos.le]

/-- Strict monotonicity: the tuple-layer encoding is order-preserving in
byte-lexicographic order over the whole `int64` range. -/
theorem tupleEncInt_lt (i1 i2 : Int) (h1 : -(2 : Int) ^ 63 ≤ i1) (h2 : i2 < 2 ^ 63)
    (hlt : i1 < i2) : lexLt (tupleEncInt i1) (tupleEncInt i2) = true := by
  rcases lt_trichotomy i1 0 with hn1 | rfl | hp1
  · have hm1 : 1 ≤ (-i1).toNat := by omega
    have hn1pos := intByteLen_pos (-i1).toNat
    have hn18 := intByteLen_le_eight (-i1).toNat
    rw [tupleEncInt_neg i1 hn1]
    rcases lt_trichotomy i2 0 with hn2 | rfl | hp2
    · have hm2 : 1 ≤ (-i2).toNat := by omega
      have hn2pos := intByteLen_pos (-i2).toNat
      have hn28 := intByteLen_le_eight (-i2).toNat
      rw [tupleEncInt_neg i2 hn2]
      have hmono : intByteLen (-i2).toNat ≤ intByteLen (-i1).toNat :=
        intByteLen_mono _ _ (by omega)
      rcases Nat.lt_or_ge (intByteLen (-i2).toNat) (intByteLen (-i1).toNat) with hne | hge
      · exact lexLt_cons_of_lt _ _ _ _ (by omega)
      · have heq : intByteLen (-i1).toNat = intByteLen (-i2).toNat :=
          Nat.le_antisymm hge hmono
        rw [heq, lexLt_cons_same]
        have hm264 : (-i2).toNat < 2 ^ 64 := by omega
        have hm256 := lt_pow_intByteLen (-i2).toNat hm264
        rw [pow256] at hm256
        have hm164 : (-i1).toNat < 2 ^ 64 := by omega
        have hm156 := lt_pow_intByteLen (-i1).toNat hm164
        rw [pow256, heq] at hm156
        have h2n : ((2 ^ (8 * intByteLen (-i2).toNat) : Nat) : Int) =
            2 ^ (8 * intByteLen (-i2).toNat) := by push_cast; ring
        refine lexLt_beBytes _ _ _ (by omega) (by rw [pow256]; omega)
    · exact lexLt_cons_of_lt _ _ _ _ (by omega)
    · rw [tupleEncInt_pos i2 hp2]
      have hn2pos := intByteLen_pos i2.toNat
      exact lexLt_cons_of_lt _ _ _ _ (by omega)
  · have hp2 : 0 < i2 := hlt
    rw [tupleEncInt_zero, tupleEncInt_pos i2 hp2]
    have hn2pos := intByteLen_pos i2.toNat
    exact lexLt_cons_of_lt _ _ _ _ (by omega)
  · have hp2 : 0 < i2 := lt_trans hp1 hlt
    rw [tupleEncInt_pos i1 hp1, tupleEncInt_pos i2 hp2]
    have hmono : intByteLen i1.toNat ≤ intByteLen i2.toNat :=
      intByteLen_mono _ _ (by omega)
    rcases Nat.lt_or_ge (intByteLen i1.toNat) (intByteLen i2.toNat) with hne | hge
    · exact lexLt_cons_of_lt _ _ _ _ (by omega)
    · have heq : intByteLen i1.toNat = intByteLen i2.toNat := Nat.le_antisymm hmono hge
      rw [heq, lexLt_cons_same]
      have hm264 : i2.toNat < 2 ^ 64 := by omega
      exact lexLt_beBytes _ _ _ (by omega) (lt_pow_intByteLen i2.toNat hm264)

/-! ## The Vector handle and the key codec (`src/vector.go`) -/

/-- The `Vector` struct: a directory subspace (its raw key prefix) and
the configured default value (a Go string, i.e. raw bytes). -/
structure Vect where
  pre : Bytes
  defaultValue : Bytes

/-- `keyAt`: the subspace key for a given index
(`vect.subspace.Pack(tuple.Tuple{index})`). -/
def keyAt (v : Vect) (i : Int) : Bytes := v.pre ++ tupleEncInt i

/-- `indexAt`: recover the index from a key
(`vect.subspace.Unpack(key)` and take the first tuple element):
check the subspace prefix, strip it, and tuple-decode the remainder. -/
def indexAt (v : Vect) (k : Bytes) : Option Int :=
  if v.pre.isPrefixOf k then tupleDecInt (k.drop v.pre.length) else none

theorem indexAt_keyAt (v : Vect) (i : Int) (h1 : -(2 : Int) ^ 63 ≤ i) (h2 : i < 2 ^ 63) :
    indexAt v (keyAt v i) = some i := by
  unfold indexAt keyAt
  rw [if_pos (by rw [List.isPrefixOf_iff_prefix]; exact ⟨tupleEncInt i, rfl⟩),
    List.drop_left, tupleDecInt_tupleEncInt i h1 h2]

theorem keyAt_inj (v : Vect) (i j : Int) (hi1 : -(2 : Int) ^ 63 ≤ i) (hi2 : i < 2 ^ 63)
    (hj1 : -(2 : Int) ^ 63 ≤ j) (hj2 : j < 2 ^ 63) (h : keyAt v i = keyAt v j) : i = j := by
  have := indexAt_keyAt v i hi1 hi2
  rw [h, indexAt_keyAt v j hj1 hj2] at this
  exact (Option.some_inj.mp this).symm

/-! ## The value codec (`src/keyvalue.go`) -/

/-- The `Value` struct returned by unpacking: kind markers plus one
payload per kind.  The `Float` field holds the IEEE-754 bit pattern of
the Go `float64`, which is exactly what `binary.Read` produces from the
stored bytes; the `String` field holds the raw bytes of the Go string. -/
structure Value where
  IsFloat : Bool := false
  IsInt : Bool := false
  IsString : Bool := false
  Float : Nat := 0
  Int : Int := 0
  String : Bytes := []
deriving DecidableEq

/-- A supported dynamic value passed to `ValPack` / `Set` / `Push`:
`int64`, `float64` (by bit pattern), or `string` (raw bytes).  The Go
code also accepts `int` and `float32`, which it converts to these. -/
inductive GoVal where
  | vint (i : Int)
  | vfloat (bits : Nat)
  | vstr (s : Bytes)
deriving DecidableEq

/-- Well-formed dynamic values: payloads within their machine range. -/
def GoValOk : GoVal → Prop
  | .vint i => -(2 : Int) ^ 63 ≤ i ∧ i < 2 ^ 63
  | .vfloat bits => bits < 2 ^ 64
  | .vstr _ => True

/-- The two's-complement bytes of an `int64`, as `binary.Write` emits. -/
def toU64 (i : Int) : Nat := (i % 2 ^ 64).toNat

/-- `ValPack`: one tag byte (0x01 int, 0x02 float, 0x03 string) followed
by an 8-byte big-endian payload, or the raw string bytes. -/
def valPack : GoVal → Bytes
  | .vint i => 1 :: beBytes 8 (toU64 i)
  | .vfloat bits => 2 :: beBytes 8 bits
  | .vstr s => 3 :: s

/-- Errors surfaced by the layer (`fmt.Errorf` sites in the source). -/
inductive VErr where
  | invalidIndex (i : Int)
  | outOfRange (i : Int)
  | emptyBytes
  | shortBytes
  | unknownTag (c : Nat)
  | decodeFail
deriving DecidableEq

/-- `ValUnpack`: dispatch on the tag byte; error on empty input or an
unknown tag; `binary.Read` needs 8 payload bytes for int/float and
ignores any surplus; a string payload is the whole remainder. -/
def valUnpack (b : Bytes) : Except VErr Value :=
  match b with
  | [] => .error .emptyBytes
  | c :: rest =>
    if c = 1 then
      if rest.length < 8 then .error .shortBytes
      else .ok { IsInt := true, Int := i64n (beValue (rest.take 8)) }
    else if c = 2 then
      if rest.length < 8 then .error .shortBytes
      else .ok { IsFloat := true, Float := beValue (rest.take 8) }
    else if c = 3 then .ok { IsString := true, String := rest }
    else .error (.unknownTag c)

/-- The `Value` a well-formed `GoVal` decodes back to. -/
def valueOf : GoVal → Value
  | .vint i => { IsInt := true, Int := i }
  | .vfloat bits => { IsFloat := true, Float := bits }
  | .vstr s => { IsString := true, String := s }

theorem toU64_lt (i : Int) : toU64 i < 2 ^ 64 := by
  unfold toU64
  omega

theorem i64n_toU64 (i : Int) (h1 : -(2 : Int) ^ 63 ≤ i) (h2 : i < 2 ^ 63) :
    i64n (toU64 i) = i := by
  unfold i64n toU64
  split_ifs <;> omega

/-- Pack/unpack round-trip on every supported well-formed value. -/
theorem valUnpack_valPack (gv : GoVal) (h : GoValOk gv) :
    valUnpack (valPack gv) = .ok (valueOf gv) := by
  cases gv with
  | vint i =>
    obtain ⟨h1, h2⟩ := h
    simp only [valPack, valUnpack, valueOf, if_true, beBytes_length, lt_self_iff_false,
      if_false]
    rw [List.take_of_length_le (by rw [beBytes_length]),
      beValue_beBytes _ _ (by have := toU64_lt i; omega), i64n_toU64 i h1 h2]
  | vfloat bits =>
    have hb : bits < 2 ^ 64 := h
    simp only [valPack, valUnpack, valueOf, if_true, beBytes_length, lt_self_iff_false,
      if_false]
    rw [List.take_of_length_le (by rw [beBytes_length]),
      beValue_beBytes _ _ (by omega)]
    norm_num
  | vstr s =>
    simp only [valPack, valUnpack, valueOf, if_true]
    norm_num

/-! ## The backing store restricted to the vector's namespace

The physical store maps byte keys to byte values in byte-lexicographic
key order.  Every key a `Vector` ever writes is `keyAt v i` for an
`int64` index `i`, and `tupleEncInt_lt` / `indexAt_keyAt` show the key
encoding is strictly order-preserving and invertible, so the namespace
content is represented as an association list of (index, value bytes)
pairs in strictly ascending index order.  Physical key order and index
order coincide, hence ranged reads below are reads in index order. -/

/-- The namespace content: (index, packed value) pairs, ascending. -/
abbrev Store := List (Int × Bytes)

/-- The ascending-key well-formedness of a namespace snapshot. -/
def SortedStore (st : Store) : Prop := List.Pairwise (fun a b => a.1 < b.1) st

/-- Every stored index is a representable `int64` (always true of the
physical store, whose keys encode `int64` values). -/
def BoundedStore (st : Store) : Prop :=
  ∀ p ∈ st, -(2 : Int) ^ 63 ≤ p.1 ∧ p.1 < 2 ^ 63

/-- `tr.Set(key, val)`: insert or overwrite, preserving key order. -/
def storeSet (i : Int) (val : Bytes) : Store → Store
  | [] => [(i, val)]
  | p :: rest =>
    if i < p.1 then (i, val) :: p :: rest
    else if i = p.1 then (i, val) :: rest
    else p :: storeSet i val rest

/-- `tr.Clear(key)`: remove the entry with the given index, if any. -/
def storeClear (i : Int) (st : Store) : Store :=
  st.filter (fun p => decide (p.1 ≠ i))

/-- The first stored entry at or after index `i`: the result of a
forward range read of limit 1 from `keyAt i` to the namespace end. -/
def firstGE (i : Int) (st : Store) : Option (Int × Bytes) :=
  st.find? (fun p => decide (i ≤ p.1))

/-! ## The Sparse Vector Core (`src/vector.go`) -/

/-- `Size`: read the greatest key at-or-before the namespace end
(`tr.GetKey(fdb.LastLessOrEqual(end))`); if it is below the namespace
begin (empty vector) return 0; otherwise decode its index via
`indexAt` and return index + 1. -/
def Size (v : Vect) (st : Store) : Except VErr Int :=
  match st.getLast? with
  | none => .ok 0
  | some p =>
    match indexAt v (keyAt v p.1) with
    | none => .error .decodeFail
    | some idx => .ok (idx + 1)

/-- `Set`: pack the value and write it at `keyAt index` unconditionally. -/
def SetAt (_v : Vect) (st : Store) (index : Int) (val : GoVal) : Store :=
  storeSet index (valPack val) st

/-- `Get`: reject a negative index; range-read one entry from
`keyAt index` to the namespace end; no entry means out of range; an
exact key match decodes the stored value; a strictly greater key means
the index is a sparse hole and yields the zero `Value`. -/
def Get (v : Vect) (st : Store) (index : Int) : Except VErr Value :=
  if index < 0 then .error (.invalidIndex index)
  else
    match firstGE index st with
    | none => .error (.outOfRange index)
    | some p => if keyAt v index = keyAt v p.1 then valUnpack p.2 else .ok {}

/-- `Push`: read `Size`, then write the packed value at `keyAt size`. -/
def Push (v : Vect) (st : Store) (val : GoVal) : Except VErr Store :=
  match Size v st with
  | .error e => .error e
  | .ok size => .ok (storeSet size (valPack val) st)

/-- `Pop`: reverse range-read of limit 2 over the namespace; empty
vector returns the zero `Value`; a top entry at index 0 needs no
materialization; a single entry, or a gap of more than 1 to the second
entry, first writes the packed default at (top index - 1); then the top
key is cleared and its value decoded and returned. -/
def Pop (v : Vect) (st : Store) : Except VErr (Value × Store) :=
  match st.reverse.take 2 with
  | [] => .ok ({}, st)
  | [top] =>
    match indexAt v (keyAt v top.1) with
    | none => .error .decodeFail
    | some i0 =>
      let st1 :=
        if i0 = 0 then st
        else storeSet (i0 - 1) (valPack (GoVal.vstr v.defaultValue)) st
      match valUnpack top.2 with
      | .error e => .error e
      | .ok val => .ok (val, storeClear top.1 st1)
  | top :: second :: _ =>
    match indexAt v (keyAt v top.1), indexAt v (keyAt v second.1) with
    | some i0, some i1 =>
      let st1 :=
        if i0 = 0 then st
        else if i0 > i1 + 1 then
          storeSet (i0 - 1) (valPack (GoVal.vstr v.defaultValue)) st
        else st
      match valUnpack top.2 with
      | .error e => .error e
      | .ok val => .ok (val, storeClear top.1 st1)
    | _, _ => .error .decodeFail

/-- `Back`: reverse range-read of limit 1; the zero `Value` when the
vector is empty, else the decoded last stored value. -/
def Back (st : Store) : Except VErr Value :=
  match st.getLast? with
  | none => .ok {}
  | some p => valUnpack p.2

/-- Modelled from the spec: `Front(tx) -> Value`: equivalent to
`Get(0, tx)`.  The `Front` method is only a commented-out stub in
`src/vector.go` (lines 209-211), so its body is taken from the spec. -/
def Front (v : Vect) (st : Store) : Except VErr Value := Get v st 0

/-- `Clear`: `tr.ClearRange(subspace)` empties the namespace. -/
def ClearAll (_st : Store) : Store := []

/-- The size abstraction the data-model invariants speak about:
0 on an empty namespace, largest stored index + 1 otherwise. -/
def specSize (st : Store) : Int :=
  match st.getLast? with
  | none => 0
  | some p => p.1 + 1

/-! ## Store lemmas -/

theorem getLast?_mem (l : Store) (a : Int × Bytes) (h : l.getLast? = some a) : a ∈ l := by
  induction l with
  | nil => cases h
  | cons x xs ih =>
    cases xs with
    | nil =>
      simp only [List.getLast?_singleton, Option.some_inj] at h
      simp [h]
    | cons y ys =>
      rw [List.getLast?_cons_cons] at h
      exact List.mem_cons_of_mem _ (ih h)

theorem sorted_getLast_max (st : Store) (p : Int × Bytes) (hs : SortedStore st)
    (hl : st.getLast? = some p) : ∀ q ∈ st, q.1 ≤ p.1 := by
  induction st with
  | nil => cases hl
  | cons x rest ih =>
    obtain ⟨hhead, htail⟩ := List.pairwise_cons.mp hs
    cases rest with
    | nil =>
      simp only [List.getLast?_singleton, Option.some_inj] at hl
      intro q hq
      rcases List.mem_cons.mp hq with rfl | hq'
      · rw [hl]
      · cases hq'
    | cons r rs =>
      rw [List.getLast?_cons_cons] at hl
      intro q hq
      rcases List.mem_cons.mp hq with rfl | hq'
      · exact le_of_lt (lt_of_lt_of_le (hhead r (List.mem_cons_self r rs))
          (ih htail hl r (List.mem_cons_self r rs)))
      · exact ih htail hl q hq'

theorem getLast?_of_max (st : Store) (p : Int × Bytes) (hs : SortedStore st) (hp : p ∈ st)
    (hmax : ∀ q ∈ st, q.1 ≤ p.1) : st.getLast? = some p := by
  induction st with
  | nil => cases hp
  | cons x rest ih =>
    obtain ⟨hhead, htail⟩ := List.pairwise_cons.mp hs
    cases rest with
    | nil =>
      rcases List.mem_cons.mp hp with rfl | hp'
      · rfl
      · cases hp'
    | cons r rs =>
      rw [List.getLast?_cons_cons]
      have hp' : p ∈ r :: rs := by
        rcases List.mem_cons.mp hp with rfl | hp'
        · exfalso
          have h1 := hmax r (List.mem_cons_of_mem _ (List.mem_cons_self r rs))
          have h2 := hhead r (List.mem_cons_self r rs)
          omega
        · exact hp'
      exact ih htail hp' (fun q hq => hmax q (List.mem_cons_of_mem _ hq))

theorem mem_storeSet_weak (i : Int) (v : Bytes) (st : Store) (q : Int × Bytes)
    (h : q ∈ storeSet i v st) : q = (i, v) ∨ q ∈ st := by
  induction st with
  | nil =>
    simp only [storeSet] at h
    simp at h
    exact Or.inl h
  | cons p rest ih =>
    simp only [storeSet] at h
    split_ifs at h with h1 h2
    · rcases List.mem_cons.mp h with rfl | h'
      · exact Or.inl rfl
      · exact Or.inr h'
    · rcases List.mem_cons.mp h with rfl | h'
      · exact Or.inl rfl
      · exact Or.inr (List.mem_cons_of_mem _ h')
    · rcases List.mem_cons.mp h with rfl | h'
      · exact Or.inr (List.mem_cons_self _ _)
      · rcases ih h' with h'' | h''
        · exact Or.inl h''
        · exact Or.inr (List.mem_cons_of_mem _ h'')

theorem mem_storeSet (i : Int) (v : Bytes) (st : Store) (q : Int × Bytes)
    (hs : SortedStore st) : q ∈ storeSet i v st ↔ q = (i, v) ∨ (q ∈ st ∧ q.1 ≠ i) := by
  induction st with
  | nil => simp [storeSet]
  | cons p rest ih =>
    obtain ⟨hhead, htail⟩ := List.pairwise_cons.mp hs
    simp only [storeSet]
    split_ifs with h1 h2
    · simp only [List.mem_cons]
      constructor
      · rintro (rfl | rfl | hq)
        · exact Or.inl rfl
        · exact Or.inr ⟨Or.inl rfl, by omega⟩
        · exact Or.inr ⟨Or.inr hq, by have := hhead q hq; omega⟩
      · rintro (rfl | ⟨(rfl | hq), hne⟩)
        · exact Or.inl rfl
        · exact Or.inr (Or.inl rfl)
        · exact Or.inr (Or.inr hq)
    · simp only [List.mem_cons]
      constructor
      · rintro (rfl | hq)
        · exact Or.inl rfl
        · exact Or.inr ⟨Or.inr hq, by have := hhead q hq; omega⟩
      · rintro (rfl | ⟨(rfl | hq), hne⟩)
        · exact Or.inl rfl
        · exact absurd h2.symm hne
        · exact Or.inr hq
    · simp only [List.mem_cons, ih htail]
      constructor
      · rintro (rfl | rfl | hq)
        · exact Or.inr ⟨Or.inl rfl, by omega⟩
        · exact Or.inl rfl
        · exact Or.inr ⟨Or.inr hq.1, hq.2⟩
      · rintro (rfl | ⟨(rfl | hq), hne⟩)
        · exact Or.inr (Or.inl rfl)
        · exact Or.inl rfl
        · exact Or.inr (Or.inr ⟨hq, hne⟩)

theorem sorted_storeSet (i : Int) (v : Bytes) (st : Store) (hs : SortedStore st) :
    SortedStore (storeSet i v st) := by
  induction st with
  | nil => simp [storeSet, SortedStore]
  | cons p rest ih =>
    obtain ⟨hhead, htail⟩ := List.pairwise_cons.mp hs
    simp only [storeSet]
    split_ifs with h1 h2
    · refine List.pairwise_cons.mpr ⟨?_, hs⟩
      intro q hq
      rcases List.mem_cons.mp hq with rfl | hq'
      · exact h1
      · exact lt_trans h1 (hhead q hq')
    · refine List.pairwise_cons.mpr ⟨?_, htail⟩
      intro q hq
      have := hhead q hq
      omega
    · refine List.pairwise_cons.mpr ⟨?_, ih htail⟩
      intro q hq
      rcases mem_storeSet_weak i v rest q hq with rfl | hq'
      · simp only []
        omega
      · exact hhead q hq'

theorem storeSet_append_of_lt (i : Int) (v : Bytes) (st : Store)
    (hall : ∀ q ∈ st, q.1 < i) : storeSet i v st = st ++ [(i, v)] := by
  induction st with
  | nil => rfl
  | cons p rest ih =>
    have hp := hall p (List.mem_cons_self p rest)
    simp only [storeSet, if_neg (by omega : ¬ i < p.1), if_neg (by omega : ¬ i = p.1)]
    rw [ih (fun q hq => hall q (List.mem_cons_of_mem _ hq))]
    rfl

theorem mem_storeClear (i : Int) (st : Store) (q : Int × Bytes) :
    q ∈ storeClear i st ↔ q ∈ st ∧ q.1 ≠ i := by
  simp [storeClear, List.mem_filter]

theorem sorted_storeClear (i : Int) (st : Store) (hs : SortedStore st) :
    SortedStore (storeClear i st) :=
  hs.sublist (List.filter_sublist st)

theorem storeClear_append (i : Int) (v : Bytes) (st : Store)
    (hall : ∀ q ∈ st, q.1 ≠ i) : storeClear i (st ++ [(i, v)]) = st := by
  unfold storeClear
  rw [List.filter_append]
  have h1 : List.filter (fun p => decide (p.1 ≠ i)) [(i, v)] = [] := by simp
  have h2 : List.filter (fun p => decide (p.1 ≠ i)) st = st :=
    List.filter_eq_self.mpr (fun a ha => by simpa using hall a ha)
  rw [h1, h2, List.append_nil]

theorem sorted_mem_unique (st : Store) (i : Int) (b c : Bytes) (hs : SortedStore st)
    (hb : (i, b) ∈ st) (hc : (i, c) ∈ st) : b = c := by
  induction st with
  | nil => cases hb
  | cons p rest ih =>
    obtain ⟨hhead, htail⟩ := List.pairwise_cons.mp hs
    rcases List.mem_cons.mp hb with hb' | hb' <;> rcases List.mem_cons.mp hc with hc' | hc'
    · rw [← hb'] at hc'
      exact (Prod.mk.injEq .. ▸ hc').2.symm
    · exfalso
      have := hhead _ hc'
      rw [← hb'] at this
      simp at this
    · exfalso
      have := hhead _ hb'
      rw [← hc'] at this
      simp at this
    · exact ih htail hb' hc'

theorem firstGE_none (i : Int) (st : Store) (h : firstGE i st = none) :
    ∀ q ∈ st, q.1 < i := by
  unfold firstGE at h
  rw [List.find?_eq_none] at h
  intro q hq
  have := h q hq
  simp at this
  omega

theorem firstGE_some (i : Int) (st : Store) (p : Int × Bytes) (h : firstGE i st = some p) :
    p ∈ st ∧ i ≤ p.1 := by
  refine ⟨List.mem_of_find?_eq_some h, ?_⟩
  have := List.find?_some h
  simpa using this

theorem firstGE_mem_exact (i : Int) (b : Bytes) (st : Store) (hs : SortedStore st)
    (hmem : (i, b) ∈ st) : firstGE i st = some (i, b) := by
  induction st with
  | nil => cases hmem
  | cons p rest ih =>
    obtain ⟨hhead, htail⟩ := List.pairwise_cons.mp hs
    unfold firstGE
    by_cases hip : i ≤ p.1
    · have hd : (decide (i ≤ p.1)) = true := by simpa using hip
      simp only [List.find?_cons, hd]
      rcases List.mem_cons.mp hmem with hm | hm
      · rw [hm]
      · exfalso
        have := hhead _ hm
        simp at this
        omega
    · have hd : (decide (i ≤ p.1)) = false := by simpa using hip
      simp only [List.find?_cons, hd]
      rcases List.mem_cons.mp hmem with hm | hm
      · exfalso
        rw [← hm] at hip
        simp at hip
      · exact ih htail hm

theorem bounded_storeSet (i : Int) (v : Bytes) (st : Store) (hb : BoundedStore st)
    (h1 : -(2 : Int) ^ 63 ≤ i) (h2 : i < 2 ^ 63) : BoundedStore (storeSet i v st) := by
  intro q hq
  rcases mem_storeSet_weak i v st q hq with rfl | hq'
  · exact ⟨h1, h2⟩
  · exact hb q hq'

theorem bounded_storeClear (i : Int) (st : Store) (hb : BoundedStore st) :
    BoundedStore (storeClear i st) := by
  intro q hq
  exact hb q ((mem_storeClear i st q).mp hq).1

theorem Size_ok (v : Vect) (st : Store) (hb : BoundedStore st) :
    Size v st = .ok (specSize st) := by
  unfold Size specSize
  cases hl : st.getLast? with
  | none => rfl
  | some p =>
    obtain ⟨hb1, hb2⟩ := hb p (getLast?_mem st p hl)
    dsimp only
    rw [indexAt_keyAt v p.1 hb1 hb2]

/-! ## Unfolding `Pop` on a non-empty namespace -/

/-- The namespace content after a successful `Pop` on `ys ++ [(t, tb)]`:
materialize the default below the top when the top is not at index 0 and
has no immediate predecessor, then clear the top key. -/
def popState (v : Vect) (ys : Store) (t : Int) (tb : Bytes) : Store :=
  storeClear t
    (if t = 0 then ys ++ [(t, tb)]
     else
       match ys.getLast? with
       | none => storeSet (t - 1) (valPack (GoVal.vstr v.defaultValue)) (ys ++ [(t, tb)])
       | some q =>
         if t > q.1 + 1 then
           storeSet (t - 1) (valPack (GoVal.vstr v.defaultValue)) (ys ++ [(t, tb)])
         else ys ++ [(t, tb)])

theorem Pop_unfold (v : Vect) (ys : Store) (t : Int) (tb : Bytes)
    (hb : BoundedStore (ys ++ [(t, tb)])) :
    Pop v (ys ++ [(t, tb)]) =
      match valUnpack tb with
      | .error e => .error e
      | .ok val => .ok (val, popState v ys t tb) := by
  have htb : (t, tb) ∈ ys ++ [(t, tb)] := by simp
  obtain ⟨ht1, ht2⟩ := hb (t, tb) htb
  have hidx : indexAt v (keyAt v t) = some t := indexAt_keyAt v t ht1 ht2
  cases hrev : ys.reverse with
  | nil =>
    have hys : ys = [] := List.reverse_eq_nil_iff.mp hrev
    subst hys
    have hsc : (([] : Store) ++ [(t, tb)]).reverse.take 2 = [(t, tb)] := by simp
    unfold Pop
    rw [hsc]
    dsimp only
    rw [hidx]
    unfold popState
    by_cases ht : t = 0
    · simp [ht]
    · simp [ht]
  | cons q qs =>
    have hlast : ys.getLast? = some q := by rw [← List.head?_reverse, hrev]; rfl
    have hqmem : q ∈ ys := by
      have hm : q ∈ ys.reverse := by rw [hrev]; exact List.mem_cons_self _ _
      exact List.mem_reverse.mp hm
    obtain ⟨hq1, hq2⟩ := hb q (by simp [hqmem])
    have hqidx : indexAt v (keyAt v q.1) = some q.1 := indexAt_keyAt v q.1 hq1 hq2
    have hsc : ((ys ++ [(t, tb)]).reverse.take 2) = [(t, tb), q] := by
      rw [List.reverse_append, hrev]
      rfl
    unfold Pop
    rw [hsc]
    dsimp only
    rw [hidx, hqidx]
    unfold popState
    rw [hlast]

theorem sorted_append_top (ys : Store) (t : Int) (tb : Bytes)
    (hs : SortedStore (ys ++ [(t, tb)])) :
    SortedStore ys ∧ ∀ q ∈ ys, q.1 < t := by
  rw [SortedStore, List.pairwise_append] at hs
  exact ⟨hs.1, fun q hq => by simpa using hs.2.2 q hq (t, tb) (by simp)⟩

/-- When the top is at index 0, or the second-to-last entry is an
immediate predecessor, `Pop` only clears the top key. -/
theorem popState_eq_no_mat (v : Vect) (ys : Store) (t : Int) (tb : Bytes)
    (hall : ∀ q ∈ ys, q.1 < t)
    (h : t = 0 ∨ ∃ q, ys.getLast? = some q ∧ ¬ t > q.1 + 1) :
    popState v ys t tb = ys := by
  have hclear : storeClear t (ys ++ [(t, tb)]) = ys :=
    storeClear_append t tb ys (fun q hq => by have := hall q hq; omega)
  unfold popState
  rcases h with ht | ⟨q, hq, hng⟩
  · rw [if_pos ht, hclear]
  · by_cases ht : t = 0
    · rw [if_pos ht, hclear]
    · rw [if_neg ht, hq]
      dsimp only
      rw [if_neg hng, hclear]

/-- When the top is not at index 0 and has no immediate predecessor,
`Pop` writes the packed default just below the top, then clears the top. -/
theorem popState_eq_mat (v : Vect) (ys : Store) (t : Int) (tb : Bytes) (ht : t ≠ 0)
    (h : ys.getLast? = none ∨ ∃ q, ys.getLast? = some q ∧ t > q.1 + 1) :
    popState v ys t tb =
      storeClear t (storeSet (t - 1) (valPack (GoVal.vstr v.defaultValue)) (ys ++ [(t, tb)])) := by
  unfold popState
  rcases h with hq | ⟨q, hq, hgap⟩
  · rw [if_neg ht, hq]
  · rw [if_neg ht, hq]
    dsimp only
    rw [if_pos hgap]

/-- After materializing at `t - 1` and clearing `t`, the last stored
entry is the materialized default at `t - 1`. -/
theorem clear_set_top (st : Store) (t : Int) (d : Bytes) (hs : SortedStore st)
    (hmax : ∀ q ∈ st, q.1 ≤ t) :
    (storeClear t (storeSet (t - 1) d st)).getLast? = some (t - 1, d) := by
  have hs1 : SortedStore (storeSet (t - 1) d st) := sorted_storeSet _ _ _ hs
  have hs2 : SortedStore (storeClear t (storeSet (t - 1) d st)) := sorted_storeClear _ _ hs1
  apply getLast?_of_max _ _ hs2
  · rw [mem_storeClear, mem_storeSet _ _ _ _ hs]
    exact ⟨Or.inl rfl, by omega⟩
  · intro r hr
    rw [mem_storeClear, mem_storeSet _ _ _ _ hs] at hr
    rcases hr with ⟨rfl | ⟨hrst, hne1⟩, hne⟩
    · omega
    · have := hmax r hrst
      omega

/-- `Pop` touches no entry other than the ones at the top index and the
index just below it. -/
theorem popState_frame (v : Vect) (ys : Store) (t : Int) (tb : Bytes)
    (hs : SortedStore (ys ++ [(t, tb)])) (j : Int) (b : Bytes)
    (hj1 : j ≠ t) (hj2 : j ≠ t - 1) :
    ((j, b) ∈ popState v ys t tb ↔ (j, b) ∈ ys ++ [(t, tb)]) := by
  unfold popState
  by_cases ht : t = 0
  · rw [if_pos ht, mem_storeClear]
    simp [hj1]
  · rw [if_neg ht]
    cases hq : ys.getLast? with
    | none =>
      rw [mem_storeClear, mem_storeSet _ _ _ _ hs]
      simp [Prod.mk.injEq, hj1, hj2]
    | some q =>
      dsimp only
      by_cases hgap : t > q.1 + 1
      · rw [if_pos hgap, mem_storeClear, mem_storeSet _ _ _ _ hs]
        simp [Prod.mk.injEq, hj1, hj2]
      · rw [if_neg hgap, mem_storeClear]
        simp [hj1]

instance {ε α : Type} [DecidableEq ε] [DecidableEq α] : DecidableEq (Except ε α) :=
  fun x y =>
    match x, y with
    | .ok a, .ok b =>
      if h : a = b then isTrue (congrArg Except.ok h)
      else isFalse (fun hc => h (by injection hc))
    | .error a, .error b =>
      if h : a = b then isTrue (congrArg Except.error h)
      else isFalse (fun hc => h (by injection hc))
    | .ok _, .error _ => isFalse (fun hc => by injection hc)
    | .error _, .ok _ => isFalse (fun hc => by injection hc)

theorem exists_append_getLast (st : Store) (p : Int × Bytes) (h : st.getLast? = some p) :
    ∃ ys, st = ys ++ [p] := by
  have hne : st ≠ [] := by
    intro hn
    rw [hn] at h
    cases h
  refine ⟨st.dropLast, ?_⟩
  have h2 := List.dropLast_append_getLast hne
  have h3 : st.getLast hne = p := by
    have h4 := List.getLast?_eq_getLast st hne
    rw [h4] at h
    exact Option.some_inj.mp h
  rw [← h3]
  exact h2.symm

theorem specSize_append (ys : Store) (p : Int × Bytes) :
    specSize (ys ++ [p]) = p.1 + 1 := by
  unfold specSize
  rw [List.getLast?_concat]

theorem all_lt_specSize (st : Store) (hs : SortedStore st) :
    ∀ q ∈ st, q.1 < specSize st := by
  intro q hq
  unfold specSize
  cases hl : st.getLast? with
  | none =>
    rw [List.getLast?_eq_none_iff] at hl
    subst hl
    cases hq
  | some p =>
    dsimp only
    have := sorted_getLast_max st p hs hl q hq
    omega

theorem specSize_lower (st : Store) (hb : BoundedStore st) :
    -(2 : Int) ^ 63 ≤ specSize st := by
  unfold specSize
  cases hl : st.getLast? with
  | none => norm_num
  | some p =>
    dsimp only
    have := hb p (getLast?_mem st p hl)
    omega

instance (st : Store) : Decidable (SortedStore st) := by
  unfold SortedStore
  infer_instance

instance (st : Store) : Decidable (BoundedStore st) := by
  unfold BoundedStore
  infer_instance

instance (gv : GoVal) : Decidable (GoValOk gv) :=
  match gv with
  | .vint _ => inferInstanceAs (Decidable (_ ∧ _))
  | .vfloat _ => inferInstanceAs (Decidable (_ < _))
  | .vstr _ => inferInstanceAs (Decidable True)

/-! ## The claims -/

/-- C2: for every vector state, `Size` returns 0 when no stored entry
exists in the namespace, and otherwise returns (largest index having a
stored entry) + 1, computed from the single largest-key-at-or-before
lookup at the namespace end boundary. -/
theorem size_correct (v : Vect) (st : Store) (hs : SortedStore st) (hb : BoundedStore st) :
    (st = [] → Size v st = .ok 0) ∧
    (∀ m bm, (m, bm) ∈ st → (∀ q ∈ st, q.1 ≤ m) → Size v st = .ok (m + 1)) := by
  constructor
  · rintro rfl
    rfl
  · intro m bm hm hmax
    rw [Size_ok v st hb]
    unfold specSize
    rw [getLast?_of_max st (m, bm) hs hm hmax]

theorem size_correct_witness :
    SortedStore [((0 : Int), valPack (GoVal.vstr [97])), (2, valPack (GoVal.vint 5))] ∧
      Size ⟨[10], [100]⟩ [((0 : Int), valPack (GoVal.vstr [97])), (2, valPack (GoVal.vint 5))] =
        Except.ok (2 + 1) :=
  ⟨by decide,
    (size_correct ⟨[10], [100]⟩ _ (by decide) (by decide)).2 2 (valPack (GoVal.vint 5))
      (by decide) (by decide)⟩

/-- C6: for every supported scalar kind and well-formed value — int64,
float64 (as its bit pattern), and string, including the empty string and
multi-byte text — `ValUnpack (ValPack v)` succeeds with exactly the
matching kind marker set and the payload equal to `v`. -/
theorem valpack_roundtrip (i : Int) (bits : Nat) (s : Bytes)
    (hi1 : -(2 : Int) ^ 63 ≤ i) (hi2 : i < 2 ^ 63) (hbits : bits < 2 ^ 64) :
    valUnpack (valPack (GoVal.vint i)) = .ok { IsInt := true, Int := i } ∧
      valUnpack (valPack (GoVal.vfloat bits)) = .ok { IsFloat := true, Float := bits } ∧
      valUnpack (valPack (GoVal.vstr s)) = .ok { IsString := true, String := s } :=
  ⟨valUnpack_valPack (GoVal.vint i) ⟨hi1, hi2⟩,
    valUnpack_valPack (GoVal.vfloat bits) hbits,
    valUnpack_valPack (GoVal.vstr s) trivial⟩

theorem valpack_roundtrip_witness :
    valUnpack (valPack (GoVal.vint (-7))) = .ok { IsInt := true, Int := -7 } ∧
      valUnpack (valPack (GoVal.vfloat 4614253070214989087)) =
        .ok { IsFloat := true, Float := 4614253070214989087 } ∧
      valUnpack (valPack (GoVal.vstr [226, 130, 172])) =
        .ok { IsString := true, String := [226, 130, 172] } :=
  valpack_roundtrip (-7) 4614253070214989087 [226, 130, 172] (by decide) (by decide) (by decide)

/-- C7: for every pair of indices i1 < i2 in the representable 64-bit
range, the encoded key of i1 is strictly below the encoded key of i2 in
byte-lexicographic order (`keyAt` is strictly monotone), and decoding a
key produced by `keyAt` recovers the original index. -/
theorem keyAt_order (v : Vect) (i1 i2 : Int) (h1 : -(2 : Int) ^ 63 ≤ i1) (h2 : i2 < 2 ^ 63)
    (hlt : i1 < i2) :
    lexLt (keyAt v i1) (keyAt v i2) = true ∧
      indexAt v (keyAt v i1) = some i1 ∧ indexAt v (keyAt v i2) = some i2 := by
  refine ⟨?_, indexAt_keyAt v i1 h1 (by omega), indexAt_keyAt v i2 (by omega) h2⟩
  unfold keyAt
  rw [lexLt_append]
  exact tupleEncInt_lt i1 i2 h1 h2 hlt

theorem keyAt_order_witness :
    lexLt (keyAt ⟨[7], []⟩ (-1)) (keyAt ⟨[7], []⟩ 300) = true ∧
      indexAt ⟨[7], []⟩ (keyAt ⟨[7], []⟩ (-1)) = some (-1) ∧
      indexAt ⟨[7], []⟩ (keyAt ⟨[7], []⟩ 300) = some 300 :=
  keyAt_order ⟨[7], []⟩ (-1) 300 (by decide) (by decide) (by decide)

/-- C8: the Core exposes a `Front` operation that returns exactly what
`Get(0, tx)` returns on every vector state (same value or same error).
`Front` itself is modelled from the spec, being only a commented-out
stub in the source. -/
theorem front_eq_get (v : Vect) (st : Store) : Front v st = Get v st 0 := rfl

/-- C10: `Set` performs no index validation: for every index, including
negative ones, it writes the packed value at that index's key, and after
`Set(i, v)` on an empty vector with i ≤ -1, `Size` returns i + 1, a
non-positive number. -/
theorem set_no_validation (v : Vect) (st : Store) (i : Int) (gv : GoVal)
    (hs : SortedStore st) (hneg : i ≤ -1) (hlow : -(2 : Int) ^ 63 ≤ i) :
    (i, valPack gv) ∈ SetAt v st i gv ∧
      SetAt v [] i gv = [(i, valPack gv)] ∧
      Size v [(i, valPack gv)] = .ok (i + 1) ∧ i + 1 ≤ 0 := by
  refine ⟨(mem_storeSet i (valPack gv) st (i, valPack gv) hs).mpr (Or.inl rfl), rfl, ?_, by omega⟩
  have hb1 : BoundedStore [(i, valPack gv)] := by
    intro p hp
    simp only [List.mem_singleton] at hp
    subst hp
    exact ⟨hlow, by omega⟩
  rw [Size_ok v _ hb1]
  rfl

theorem set_no_validation_witness :
    SortedStore [((5 : Int), valPack (GoVal.vstr []))] ∧
      (((-3 : Int), valPack (GoVal.vint 42)) ∈
          SetAt ⟨[4], [100]⟩ [((5 : Int), valPack (GoVal.vstr []))] (-3) (GoVal.vint 42) ∧
        SetAt ⟨[4], [100]⟩ [] (-3) (GoVal.vint 42) = [((-3 : Int), valPack (GoVal.vint 42))] ∧
        Size ⟨[4], [100]⟩ [((-3 : Int), valPack (GoVal.vint 42))] = .ok (-3 + 1) ∧
        (-3 : Int) + 1 ≤ 0) :=
  ⟨by decide,
    set_no_validation ⟨[4], [100]⟩ [((5 : Int), valPack (GoVal.vstr []))] (-3) (GoVal.vint 42)
      (by decide) (by decide) (by decide)⟩

/-- C4 (code evidence): on a vector configured with the non-empty
default value `[100]` and a single stored entry at index 1 — so index 0
is a sparse hole inside [0, Size) — `Get 0` returns the zero `Value`
sentinel, with no kind marker set, and not the configured default value,
which would decode to a string `Value` carrying `[100]`.  This
contradicts the package comment of `src/vector.go` (lines 17-18) and
data-model invariant I3. -/
theorem get_default_bug :
    Size ⟨[9], [100]⟩ [((1 : Int), valPack (GoVal.vstr [120]))] = .ok 2 ∧
      Get ⟨[9], [100]⟩ [((1 : Int), valPack (GoVal.vstr [120]))] 0 = .ok {} ∧
      valUnpack (valPack (GoVal.vstr [100])) = .ok { IsString := true, String := [100] } ∧
      ({} : Value) ≠ { IsString := true, String := ([100] : Bytes) } :=
  ⟨by decide, by decide, by decide, by decide⟩

/-- C3: for every index i and vector state, `Get i` fails at the
negative-index check when i < 0; fails at the empty-scan check when
i ≥ Size; returns the decoded stored value when the first found key
equals `keyAt i`; and returns the zero default `Value` when the first
found key is strictly greater than `keyAt i` (sparse hole below Size). -/
theorem get_correct (v : Vect) (st : Store) (i : Int) (hs : SortedStore st)
    (hb : BoundedStore st) :
    (i < 0 → Get v st i = .error (.invalidIndex i)) ∧
      (0 ≤ i → specSize st ≤ i → Get v st i = .error (.outOfRange i)) ∧
      (∀ b, 0 ≤ i → (i, b) ∈ st → Get v st i = valUnpack b) ∧
      (0 ≤ i → i < specSize st → (∀ b, (i, b) ∉ st) → Get v st i = .ok {}) := by
  refine ⟨?_, ?_, ?_, ?_⟩
  · intro hneg
    unfold Get
    rw [if_pos hneg]
  · intro hpos hsize
    have hnone : firstGE i st = none := by
      unfold firstGE
      rw [List.find?_eq_none]
      intro q hq
      simp only [decide_eq_true_eq]
      have := all_lt_specSize st hs q hq
      omega
    unfold Get
    rw [if_neg (by omega), hnone]
  · intro b hpos hmem
    unfold Get
    rw [if_neg (by omega), firstGE_mem_exact i b st hs hmem]
    dsimp only
    rw [if_pos rfl]
  · intro hpos hlt hno
    cases hl : st.getLast? with
    | none =>
      exfalso
      rw [List.getLast?_eq_none_iff] at hl
      subst hl
      simp [specSize] at hlt
      omega
    | some p =>
      have hpmem := getLast?_mem st p hl
      obtain ⟨hp1, hp2⟩ := hb p hpmem
      have hps : specSize st = p.1 + 1 := by
        unfold specSize
        rw [hl]
      cases hf : firstGE i st with
      | none =>
        exfalso
        have := firstGE_none i st hf p hpmem
        omega
      | some r =>
        obtain ⟨hrmem, hir⟩ := firstGE_some i st r hf
        have hrne : r.1 ≠ i := by
          intro he
          apply hno r.2
          rw [← he]
          exact hrmem
        have hkey : keyAt v i ≠ keyAt v r.1 := by
          intro he
          obtain ⟨hr1, hr2⟩ := hb r hrmem
          have := keyAt_inj v i r.1 (by omega) (by omega) hr1 hr2 he
          omega
        unfold Get
        rw [if_neg (by omega), hf]
        dsimp only
        rw [if_neg hkey]

theorem get_correct_witness :
    (SortedStore [((1 : Int), valPack (GoVal.vint 9))] ∧
        (0 : Int) < specSize [((1 : Int), valPack (GoVal.vint 9))]) ∧
      Get ⟨[8], [100]⟩ [((1 : Int), valPack (GoVal.vint 9))] 0 = .ok {} :=
  ⟨⟨by decide, by decide⟩,
    (get_correct ⟨[8], [100]⟩ [((1 : Int), valPack (GoVal.vint 9))] 0 (by decide)
        (by decide)).2.2.2 (by decide) (by decide)
      (by intro b hbm; simp [Prod.mk.injEq] at hbm)⟩

/-- The state effects of `Pop` in the materializing cases (single entry,
or gap above the second entry). -/
theorem pop_mat_case (v : Vect) (ys : Store) (t : Int) (tb : Bytes)
    (hs : SortedStore (ys ++ [(t, tb)])) (hb : BoundedStore (ys ++ [(t, tb)])) (ht0 : 0 < t)
    (hmat : ys.getLast? = none ∨ ∃ q, ys.getLast? = some q ∧ t > q.1 + 1) :
    specSize (popState v ys t tb) = t ∧ BoundedStore (popState v ys t tb) ∧
      (∀ b, (t, b) ∉ popState v ys t tb) ∧
      (t - 1, valPack (GoVal.vstr v.defaultValue)) ∈ popState v ys t tb := by
  obtain ⟨hys_s, hall⟩ := sorted_append_top ys t tb hs
  have ht2 : t < 2 ^ 63 := (hb (t, tb) (by simp)).2
  have hmax : ∀ q ∈ ys ++ [(t, tb)], q.1 ≤ t := by
    intro q hq
    rcases List.mem_append.mp hq with hq' | hq'
    · exact le_of_lt (hall q hq')
    · simp only [List.mem_singleton] at hq'
      rw [hq']
  rw [popState_eq_mat v ys t tb (by omega) hmat]
  refine ⟨?_, ?_, ?_, ?_⟩
  · unfold specSize
    rw [clear_set_top _ _ _ hs hmax]
    dsimp only
    omega
  · exact bounded_storeClear _ _ (bounded_storeSet _ _ _ hb (by omega) (by omega))
  · intro b hbm
    rw [mem_storeClear] at hbm
    exact hbm.2 rfl
  · rw [mem_storeClear, mem_storeSet _ _ _ _ hs]
    exact ⟨Or.inl rfl, by omega⟩

/-- C1: on every reachable state with Size s ≥ 1 (whose top stored entry
sits at index s-1 by invariant I4), `Pop` returns the decoded value of
the entry at s-1 and a state whose `Size` is s-1; in particular, when no
entry exists at s-2 (and s-1 > 0), the packed configured default has
been written at index s-2, so later `Size` calls stay correct. -/
theorem pop_correct (v : Vect) (st : Store) (t : Int) (tb : Bytes) (val : Value)
    (hs : SortedStore st) (hb : BoundedStore st) (hnn : ∀ q ∈ st, 0 ≤ q.1)
    (hlast : st.getLast? = some (t, tb)) (hval : valUnpack tb = .ok val) :
    specSize st = t + 1 ∧
      ∃ st2, Pop v st = .ok (val, st2) ∧
        Size v st2 = .ok t ∧
        (∀ b, (t, b) ∉ st2) ∧
        ((0 < t ∧ ∀ b, (t - 1, b) ∉ st) →
          (t - 1, valPack (GoVal.vstr v.defaultValue)) ∈ st2) := by
  obtain ⟨ys, rfl⟩ := exists_append_getLast st (t, tb) hlast
  obtain ⟨hys_s, hall⟩ := sorted_append_top ys t tb hs
  have htmem : (t, tb) ∈ ys ++ [(t, tb)] := by simp
  have htnn : 0 ≤ t := hnn (t, tb) htmem
  have hmain : specSize (popState v ys t tb) = t ∧ BoundedStore (popState v ys t tb) ∧
      (∀ b, (t, b) ∉ popState v ys t tb) ∧
      ((0 < t ∧ ∀ b, (t - 1, b) ∉ ys ++ [(t, tb)]) →
        (t - 1, valPack (GoVal.vstr v.defaultValue)) ∈ popState v ys t tb) := by
    by_cases ht : t = 0
    · have hys : ys = [] := by
        rw [List.eq_nil_iff_forall_not_mem]
        intro q hq
        have h1 := hall q hq
        have h2 := hnn q (List.mem_append_left _ hq)
        omega
      have hps : popState v ys t tb = ys := popState_eq_no_mat v ys t tb hall (Or.inl ht)
      rw [hps, hys]
      refine ⟨by rw [ht]; rfl, ?_, ?_, ?_⟩
      · exact fun q hq => absurd hq (List.not_mem_nil q)
      · intro b hbm
        cases hbm
      · rintro ⟨hpos, _⟩
        omega
    · cases hql : ys.getLast? with
      | none =>
        obtain ⟨ha, hbb, hc, hd⟩ := pop_mat_case v ys t tb hs hb (by omega) (Or.inl hql)
        exact ⟨ha, hbb, hc, fun _ => hd⟩
      | some q =>
        by_cases hgap : t > q.1 + 1
        · obtain ⟨ha, hbb, hc, hd⟩ :=
            pop_mat_case v ys t tb hs hb (by omega) (Or.inr ⟨q, hql, hgap⟩)
          exact ⟨ha, hbb, hc, fun _ => hd⟩
        · have hps : popState v ys t tb = ys :=
            popState_eq_no_mat v ys t tb hall (Or.inr ⟨q, hql, hgap⟩)
          have hq1 : q.1 = t - 1 := by
            have := hall q (getLast?_mem ys q hql)
            omega
          rw [hps]
          refine ⟨?_, ?_, ?_, ?_⟩
          · unfold specSize
            rw [hql]
            dsimp only
            omega
          · intro r hr
            exact hb r (List.mem_append_left _ hr)
          · intro b hbm
            have h5 : t < t := hall (t, b) hbm
            omega
          · rintro ⟨hpos, hnone⟩
            exfalso
            apply hnone q.2
            have he : ((t : Int) - 1, q.2) = q := by
              rw [← hq1]
            rw [he]
            exact List.mem_append_left _ (getLast?_mem ys q hql)
  obtain ⟨hsize2, hb2, hnot, hmatc⟩ := hmain
  refine ⟨specSize_append ys (t, tb), popState v ys t tb, ?_, ?_, hnot, hmatc⟩
  · rw [Pop_unfold v ys t tb hb, hval]
  · rw [Size_ok v _ hb2, hsize2]

theorem pop_correct_witness :
    (SortedStore [((3 : Int), valPack (GoVal.vstr [97]))] ∧
        valUnpack (valPack (GoVal.vstr [97])) = .ok { IsString := true, String := [97] }) ∧
      (specSize [((3 : Int), valPack (GoVal.vstr [97]))] = 3 + 1 ∧
        ∃ st2,
          Pop ⟨[2], [100]⟩ [((3 : Int), valPack (GoVal.vstr [97]))] =
              .ok ({ IsString := true, String := [97] }, st2) ∧
            Size ⟨[2], [100]⟩ st2 = .ok 3 ∧
            (∀ b, ((3 : Int), b) ∉ st2) ∧
            ((0 < (3 : Int) ∧ ∀ b, ((3 : Int) - 1, b) ∉ [((3 : Int), valPack (GoVal.vstr [97]))]) →
              ((3 : Int) - 1, valPack (GoVal.vstr [100])) ∈ st2)) :=
  ⟨⟨by decide, by decide⟩,
    pop_correct ⟨[2], [100]⟩ [((3 : Int), valPack (GoVal.vstr [97]))] 3
      (valPack (GoVal.vstr [97])) { IsString := true, String := [97] } (by decide) (by decide)
      (by decide) (by decide) (by decide)⟩

/-- C5: for every well-formed scalar and every vector state, `Push`
followed immediately by `Pop` in the same transactional context returns
the pushed value and leaves the namespace content — hence `Size` —
exactly as before the push. -/
theorem push_pop_roundtrip (v : Vect) (st : Store) (gv : GoVal) (hs : SortedStore st)
    (hb : BoundedStore st) (hroom : specSize st < 2 ^ 63) (hgv : GoValOk gv) :
    Push v st gv = .ok (storeSet (specSize st) (valPack gv) st) ∧
      Pop v (storeSet (specSize st) (valPack gv) st) = .ok (valueOf gv, st) ∧
      Size v st = .ok (specSize st) := by
  have hall : ∀ q ∈ st, q.1 < specSize st := all_lt_specSize st hs
  have hlow : -(2 : Int) ^ 63 ≤ specSize st := specSize_lower st hb
  have hset : storeSet (specSize st) (valPack gv) st = st ++ [(specSize st, valPack gv)] :=
    storeSet_append_of_lt _ _ _ hall
  have hb1 : BoundedStore (st ++ [(specSize st, valPack gv)]) := by
    intro q hq
    rcases List.mem_append.mp hq with hq' | hq'
    · exact hb q hq'
    · simp only [List.mem_singleton] at hq'
      rw [hq']
      exact ⟨hlow, hroom⟩
  refine ⟨?_, ?_, Size_ok v st hb⟩
  · unfold Push
    rw [Size_ok v st hb]
  · rw [hset, Pop_unfold v st (specSize st) (valPack gv) hb1, valUnpack_valPack gv hgv]
    dsimp only
    have hps : popState v st (specSize st) (valPack gv) = st := by
      apply popState_eq_no_mat v st (specSize st) (valPack gv) hall
      cases hl : st.getLast? with
      | none =>
        left
        rw [List.getLast?_eq_none_iff] at hl
        subst hl
        rfl
      | some q =>
        right
        refine ⟨q, rfl, ?_⟩
        have : specSize st = q.1 + 1 := by
          unfold specSize
          rw [hl]
        omega
    rw [hps]

theorem push_pop_roundtrip_witness :
    (SortedStore [((0 : Int), valPack (GoVal.vstr [97]))] ∧ GoValOk (GoVal.vint 11)) ∧
      (Push ⟨[3], [100]⟩ [((0 : Int), valPack (GoVal.vstr [97]))] (GoVal.vint 11) =
          .ok (storeSet (specSize [((0 : Int), valPack (GoVal.vstr [97]))])
            (valPack (GoVal.vint 11)) [((0 : Int), valPack (GoVal.vstr [97]))]) ∧
        Pop ⟨[3], [100]⟩ (storeSet (specSize [((0 : Int), valPack (GoVal.vstr [97]))])
            (valPack (GoVal.vint 11)) [((0 : Int), valPack (GoVal.vstr [97]))]) =
          .ok (valueOf (GoVal.vint 11), [((0 : Int), valPack (GoVal.vstr [97]))]) ∧
        Size ⟨[3], [100]⟩ [((0 : Int), valPack (GoVal.vstr [97]))] =
          .ok (specSize [((0 : Int), valPack (GoVal.vstr [97]))])) :=
  ⟨⟨by decide, by decide⟩,
    push_pop_roundtrip ⟨[3], [100]⟩ [((0 : Int), valPack (GoVal.vstr [97]))] (GoVal.vint 11)
      (by decide) (by decide) (by decide) (by decide)⟩

/-- C9: on every non-empty vector state with top stored index t, a
successful `Pop` changes at most the entries at indices t (cleared) and
t-1 (possibly materialized); every stored entry at any other index is
untouched. -/
theorem pop_frame (v : Vect) (st : Store) (t : Int) (tb : Bytes) (val : Value) (st2 : Store)
    (hs : SortedStore st) (hb : BoundedStore st) (hlast : st.getLast? = some (t, tb))
    (hpop : Pop v st = .ok (val, st2)) :
    ∀ j b, j ≠ t → j ≠ t - 1 → ((j, b) ∈ st2 ↔ (j, b) ∈ st) := by
  obtain ⟨ys, rfl⟩ := exists_append_getLast st (t, tb) hlast
  rw [Pop_unfold v ys t tb hb] at hpop
  cases hv : valUnpack tb with
  | error e =>
    rw [hv] at hpop
    exact Except.noConfusion hpop
  | ok w =>
    rw [hv] at hpop
    have hst2 : st2 = popState v ys t tb := by
      injection hpop with h1
      injection h1 with h2 h3
      exact h3.symm
    subst hst2
    intro j b hj1 hj2
    exact popState_frame v ys t tb hs j b hj1 hj2

theorem pop_frame_witness :
    (SortedStore [((1 : Int), valPack (GoVal.vint 4)), (5, valPack (GoVal.vint 6))] ∧
        Pop ⟨[6], [100]⟩ [((1 : Int), valPack (GoVal.vint 4)), (5, valPack (GoVal.vint 6))] =
          .ok ({ IsInt := true, Int := 6 },
            [((1 : Int), valPack (GoVal.vint 4)), (4, valPack (GoVal.vstr [100]))])) ∧
      (((1 : Int), valPack (GoVal.vint 4)) ∈
          [((1 : Int), valPack (GoVal.vint 4)), ((4 : Int), valPack (GoVal.vstr [100]))] ↔
        ((1 : Int), valPack (GoVal.vint 4)) ∈
          [((1 : Int), valPack (GoVal.vint 4)), ((5 : Int), valPack (GoVal.vint 6))]) :=
  ⟨⟨by decide, by decide⟩,
    pop_frame ⟨[6], [100]⟩ [((1 : Int), valPack (GoVal.vint 4)), (5, valPack (GoVal.vint 6))] 5
      (valPack (GoVal.vint 6)) { IsInt := true, Int := 6 }
      [((1 : Int), valPack (GoVal.vint 4)), (4, valPack (GoVal.vstr [100]))] (by decide)
      (by decide) (by decide) (by decide) 1 (valPack (GoVal.vint 4)) (by decide) (by decide)⟩

end FdbVec
